import Mathlib

/-!
Shallow embedding of the SAR RTC comparison core of the repository:
the metric engine (`src/_analyze.py`, `src/_analyze_extended.py`,
`src/_analyze_lia.py`), the offset-search primitive
(`src/_analyze_lia.py`), and the loading/alignment step
(`src/_data_utils.py`).

Modelling conventions.  Machine floats are modelled exactly: a finite
value is a rational number, NaN (and any non-finite value) is a
dedicated constructor `Val.nan`, and quantities the source obtains
through `sqrt`/`log10` live in `ℝ`.  A numpy comparison against NaN is
false, which the embeddings reproduce by pattern matching on `Val`.
-/

set_option maxRecDepth 100000

namespace RTC

/-- A numpy floating-point cell: either NaN/non-finite, or a finite value. -/
inductive Val where
  | nan : Val
  | num (q : ℚ) : Val
deriving DecidableEq, Repr

/-- Negation of a float; NaN maps to NaN (numpy: `-nan` is still NaN). -/
def negVal : Val → Val
  | Val.nan => Val.nan
  | Val.num q => Val.num (-q)

/-- The element pairs at positions where both arrays are finite
(`np.isfinite(data1) & np.isfinite(data2)` in the source), in index order. -/
def finitePairs (a b : List Val) : List (ℚ × ℚ) :=
  (a.zip b).filterMap fun p =>
    match p with
    | (Val.num x, Val.num y) => some (x, y)
    | _ => none

/-- `calculate_bias` from `src/_analyze.py`: mean of `data1 - data2` over the
joint finite mask; NaN when the mask is empty. -/
def calculate_bias (a b : List Val) : Val :=
  let ps := finitePairs a b
  if ps.length = 0 then Val.nan
  else Val.num ((ps.map fun p => p.1 - p.2).sum / ps.length)

/-- Mean squared difference over the joint finite mask: the radicand of the
RMSE computed by `calculate_rmse` in `src/_analyze.py`. -/
def msd (a b : List Val) : ℚ :=
  let ps := finitePairs a b
  (ps.map fun p => (p.1 - p.2) ^ 2).sum / ps.length

/-- `calculate_rmse` from `src/_analyze.py`: `sqrt(mean((a-b)^2))` over the
joint finite mask; `none` models the NaN returned on an empty mask. -/
noncomputable def calculate_rmse (a b : List Val) : Option ℝ :=
  if (finitePairs a b).length = 0 then none
  else some (Real.sqrt ((msd a b : ℚ) : ℝ))

section PairStats

variable {α : Type} [CommRing α]

/-- Sum of the first components of a list of sample pairs. -/
def sumX (ps : List (α × α)) : α := (ps.map Prod.fst).sum

/-- Sum of the second components of a list of sample pairs. -/
def sumY (ps : List (α × α)) : α := (ps.map Prod.snd).sum

/-- Sum of the products of the sample pairs. -/
def sumXY (ps : List (α × α)) : α := (ps.map fun p => p.1 * p.2).sum

/-- Sum of squares of the first components. -/
def sumX2 (ps : List (α × α)) : α := (ps.map fun p => p.1 ^ 2).sum

/-- Sum of squares of the second components. -/
def sumY2 (ps : List (α × α)) : α := (ps.map fun p => p.2 ^ 2).sum

/-- `n·Σxy − Σx·Σy`, the covariance of the sample pairs scaled by `n²`; the
Pearson correlation is `covS / sqrt (varX · varY)`. -/
def covS (ps : List (α × α)) : α := ps.length * sumXY ps - sumX ps * sumY ps

/-- `n·Σx² − (Σx)²`, the variance of the first components scaled by `n²`. -/
def varX (ps : List (α × α)) : α := ps.length * sumX2 ps - sumX ps ^ 2

/-- `n·Σy² − (Σy)²`, the variance of the second components scaled by `n²`. -/
def varY (ps : List (α × α)) : α := ps.length * sumY2 ps - sumY ps ^ 2

end PairStats

/-- The Pearson r returned by `calculate_correlation` in `src/_analyze.py`:
`none` models NaN (joint mask smaller than 3, or a zero-variance input, for
which `scipy.stats.pearsonr` yields NaN).  The p-value is not modelled. -/
noncomputable def correlation_r (a b : List Val) : Option ℝ :=
  let ps := finitePairs a b
  if ps.length < 3 then none
  else if varX ps = 0 ∨ varY ps = 0 then none
  else some (((covS ps : ℚ) : ℝ) / Real.sqrt (((varX ps * varY ps : ℚ) : ℝ)))

/-- The finite entries of an array (`data[np.isfinite(data)]`). -/
def validVals (a : List Val) : List ℚ :=
  a.filterMap fun v => match v with | Val.num q => some q | Val.nan => none

/-- Population mean of a rational list (`np.mean`); callers guard against the
empty list exactly where the source does. -/
def qmean (l : List ℚ) : ℚ := l.sum / l.length

/-- Population variance of a rational list; `np.std` is its square root. -/
def qvar (l : List ℚ) : ℚ := (l.map fun x => (x - qmean l) ^ 2).sum / l.length

/-- `calculate_cv` from `src/_analyze.py`: `(np.std(valid)/|np.mean(valid)|)·100`
over the finite entries; `none` models the NaN returned when no entry is
finite.  (A zero mean yields a non-finite cv in the source; no claim below
evaluates that case.) -/
noncomputable def calculate_cv (a : List Val) : Option ℝ :=
  let v := validVals a
  if v.length = 0 then none
  else some (Real.sqrt ((qvar v : ℚ) : ℝ) / |((qmean v : ℚ) : ℝ)| * 100)

/-- Result record of `calculate_stats`; `none` fields model NaN. -/
structure StatsResult where
  mean : Option ℝ
  std : Option ℝ
  cv : Option ℝ
  n : ℕ

/-- `calculate_stats` from `src/_analyze.py`. -/
noncomputable def calculate_stats (a : List Val) : StatsResult :=
  let v := validVals a
  if v.length = 0 then ⟨none, none, none, 0⟩
  else ⟨some ((qmean v : ℚ) : ℝ), some (Real.sqrt ((qvar v : ℚ) : ℝ)),
        calculate_cv a, v.length⟩

/-- `calc_rmse` from `src/_analyze_extended.py`: RMSE gated on at least 10
jointly finite samples (`none` models the NaN short-circuit). -/
noncomputable def calc_rmse (test ref : List Val) : Option ℝ :=
  if (finitePairs test ref).length < 10 then none
  else some (Real.sqrt ((msd test ref : ℚ) : ℝ))

/-- `calc_r2` from `src/_analyze_extended.py`: squared Pearson r gated on at
least 10 jointly finite samples; NaN on a zero-variance input (there
`scipy.stats.pearsonr` yields NaN, whose square is NaN). -/
def calc_r2 (test ref : List Val) : Val :=
  let ps := finitePairs test ref
  if ps.length < 10 then Val.nan
  else if varX ps = 0 ∨ varY ps = 0 then Val.nan
  else Val.num (covS ps ^ 2 / (varX ps * varY ps))

section SwapLemmas

/-- Swapping the argument order of the metric functions swaps each retained
sample pair. -/
lemma finitePairs_swap (a b : List Val) :
    finitePairs b a = (finitePairs a b).map Prod.swap := by
  unfold finitePairs
  rw [← List.zip_swap a b, List.filterMap_map, List.map_filterMap]
  apply List.filterMap_congr
  intro p _
  rcases p with ⟨x, y⟩
  cases x <;> cases y <;> rfl

lemma sum_sub_swap (ps : List (ℚ × ℚ)) :
    ((ps.map Prod.swap).map fun p => p.1 - p.2).sum
      = -((ps.map fun p => p.1 - p.2).sum) := by
  induction ps with
  | nil => simp
  | cons p ps ih =>
      simp only [List.map_cons, List.sum_cons, List.map_map, Function.comp,
        Prod.fst_swap, Prod.snd_swap] at ih ⊢
      rw [ih]; ring

lemma sum_sq_sub_swap (ps : List (ℚ × ℚ)) :
    ((ps.map Prod.swap).map fun p => (p.1 - p.2) ^ 2).sum
      = ((ps.map fun p => (p.1 - p.2) ^ 2).sum) := by
  induction ps with
  | nil => simp
  | cons p ps ih =>
      simp only [List.map_cons, List.sum_cons, List.map_map, Function.comp,
        Prod.fst_swap, Prod.snd_swap] at ih ⊢
      rw [ih]; ring

lemma sumX_swap (ps : List (ℚ × ℚ)) : sumX (ps.map Prod.swap) = sumY ps := by
  induction ps with
  | nil => rfl
  | cons p ps ih => simp [sumX, sumY] at ih ⊢; exact ih

lemma sumY_swap (ps : List (ℚ × ℚ)) : sumY (ps.map Prod.swap) = sumX ps := by
  induction ps with
  | nil => rfl
  | cons p ps ih => simp [sumX, sumY] at ih ⊢; exact ih

lemma sumXY_swap (ps : List (ℚ × ℚ)) : sumXY (ps.map Prod.swap) = sumXY ps := by
  induction ps with
  | nil => rfl
  | cons p ps ih => simp [sumXY] at ih ⊢; rw [ih]; ring

lemma sumX2_swap (ps : List (ℚ × ℚ)) : sumX2 (ps.map Prod.swap) = sumY2 ps := by
  induction ps with
  | nil => rfl
  | cons p ps ih => simp [sumX2, sumY2] at ih ⊢; exact ih

lemma sumY2_swap (ps : List (ℚ × ℚ)) : sumY2 (ps.map Prod.swap) = sumX2 ps := by
  induction ps with
  | nil => rfl
  | cons p ps ih => simp [sumX2, sumY2] at ih ⊢; exact ih

lemma covS_swap (ps : List (ℚ × ℚ)) : covS (ps.map Prod.swap) = covS ps := by
  simp [covS, sumXY_swap, sumX_swap, sumY_swap]; ring

lemma varX_swap (ps : List (ℚ × ℚ)) : varX (ps.map Prod.swap) = varY ps := by
  simp [varX, varY, sumX2_swap, sumX_swap]

lemma varY_swap (ps : List (ℚ × ℚ)) : varY (ps.map Prod.swap) = varX ps := by
  simp [varX, varY, sumY2_swap, sumY_swap]

end SwapLemmas

/-- C6: for equal-shape arrays, `bias(a,b) = -bias(b,a)`,
`rmse(a,b) = rmse(b,a)`, and the Pearson r of `correlation` is symmetric. -/
theorem bias_rmse_correlation_symmetry (a b : List Val)
    (_h : a.length = b.length) :
    calculate_bias a b = negVal (calculate_bias b a) ∧
    calculate_rmse a b = calculate_rmse b a ∧
    correlation_r a b = correlation_r b a := by
  have hswap := finitePairs_swap a b
  have hlen : (finitePairs b a).length = (finitePairs a b).length := by
    rw [hswap, List.length_map]
  refine ⟨?_, ?_, ?_⟩
  · unfold calculate_bias
    rw [hswap]
    by_cases h0 : (finitePairs a b).length = 0
    · simp [h0, negVal]
    · simp only [List.length_map, h0, if_neg h0, if_false]
      rw [sum_sub_swap]
      simp [negVal, neg_div]
  · unfold calculate_rmse msd
    rw [hswap]
    by_cases h0 : (finitePairs a b).length = 0
    · simp [h0]
    · simp only [List.length_map, h0, if_neg h0, if_false]
      rw [sum_sq_sub_swap]
  · unfold correlation_r
    rw [hswap]
    simp only [List.length_map, covS_swap, varX_swap, varY_swap]
    by_cases h3 : (finitePairs a b).length < 3
    · simp [h3]
    · by_cases hv : varX (finitePairs a b) = 0 ∨ varY (finitePairs a b) = 0
      · simp [h3, hv, or_comm]
      · have hv' : ¬(varY (finitePairs a b) = 0 ∨ varX (finitePairs a b) = 0) := by
          intro hc; exact hv (Or.symm hc)
        simp only [if_neg h3, if_neg hv, if_neg hv']
        rw [mul_comm (varY (finitePairs a b)) (varX (finitePairs a b))]

/-- C6 witness: the symmetry theorem applied at concrete equal-length
arrays. -/
theorem bias_rmse_correlation_symmetry_witness :
    ([Val.num 1, Val.nan, Val.num 3].length = [Val.num 2, Val.num 5, Val.num 7].length) ∧
    (calculate_bias [Val.num 1, Val.nan, Val.num 3] [Val.num 2, Val.num 5, Val.num 7]
        = negVal (calculate_bias [Val.num 2, Val.num 5, Val.num 7] [Val.num 1, Val.nan, Val.num 3]) ∧
      calculate_rmse [Val.num 1, Val.nan, Val.num 3] [Val.num 2, Val.num 5, Val.num 7]
        = calculate_rmse [Val.num 2, Val.num 5, Val.num 7] [Val.num 1, Val.nan, Val.num 3] ∧
      correlation_r [Val.num 1, Val.nan, Val.num 3] [Val.num 2, Val.num 5, Val.num 7]
        = correlation_r [Val.num 2, Val.num 5, Val.num 7] [Val.num 1, Val.nan, Val.num 3]) :=
  ⟨by decide, bias_rmse_correlation_symmetry _ _ (by decide)⟩

/-- C8: a grid with no finite entry yields `n = 0` and all other fields equal
to the undefined sentinel; a grid with finite entries gets the population
mean and standard deviation of its finite entries and `cv = std/|mean|·100`. -/
theorem stats_empty_sentinel (a : List Val) (h : (validVals a).length = 0) :
    calculate_stats a = ⟨none, none, none, 0⟩ ∧
    ∀ b : List Val, 0 < (validVals b).length →
      calculate_stats b =
        ⟨some ((qmean (validVals b) : ℚ) : ℝ),
         some (Real.sqrt ((qvar (validVals b) : ℚ) : ℝ)),
         some (Real.sqrt ((qvar (validVals b) : ℚ) : ℝ)
                / |((qmean (validVals b) : ℚ) : ℝ)| * 100),
         (validVals b).length⟩ := by
  constructor
  · unfold calculate_stats
    simp [h]
  · intro b hb
    have hb0 : ¬(validVals b).length = 0 := Nat.pos_iff_ne_zero.mp hb
    unfold calculate_stats calculate_cv
    simp [hb0]

/-- C8 witness: the all-missing grid `[nan, nan]`. -/
theorem stats_empty_sentinel_witness :
    ((validVals [Val.nan, Val.nan]).length = 0) ∧
    (calculate_stats [Val.nan, Val.nan] = ⟨none, none, none, 0⟩ ∧
     ∀ b : List Val, 0 < (validVals b).length →
       calculate_stats b =
         ⟨some ((qmean (validVals b) : ℚ) : ℝ),
          some (Real.sqrt ((qvar (validVals b) : ℚ) : ℝ)),
          some (Real.sqrt ((qvar (validVals b) : ℚ) : ℝ)
                 / |((qmean (validVals b) : ℚ) : ℝ)| * 100),
          (validVals b).length⟩) :=
  ⟨by decide, stats_empty_sentinel _ (by decide)⟩

/-- C9: the extended pairwise metrics return the undefined sentinel whenever
fewer than 10 jointly finite samples exist (not only on an empty mask), and a
computed value certifies at least 10 joint samples. -/
theorem extended_metrics_sample_gate (t r : List Val)
    (h : (finitePairs t r).length < 10) :
    calc_rmse t r = none ∧ calc_r2 t r = Val.nan ∧
    ∀ t2 r2 : List Val,
      ((calc_rmse t2 r2).isSome → 10 ≤ (finitePairs t2 r2).length) ∧
      (calc_r2 t2 r2 ≠ Val.nan → 10 ≤ (finitePairs t2 r2).length) := by
  refine ⟨?_, ?_, ?_⟩
  · unfold calc_rmse
    simp [h]
  · unfold calc_r2
    simp [h]
  · intro t2 r2
    constructor
    · intro hs
      by_contra hlt
      unfold calc_rmse at hs
      simp [Nat.lt_of_not_le hlt] at hs
    · intro hs
      by_contra hlt
      unfold calc_r2 at hs
      simp [Nat.lt_of_not_le hlt] at hs

/-- C9 witness: five jointly finite samples are below the gate. -/
theorem extended_metrics_sample_gate_witness :
    ((finitePairs [Val.num 1, Val.num 2, Val.num 3, Val.num 4, Val.num 5]
        [Val.num 9, Val.num 8, Val.num 7, Val.num 6, Val.num 5]).length < 10) ∧
    (calc_rmse [Val.num 1, Val.num 2, Val.num 3, Val.num 4, Val.num 5]
        [Val.num 9, Val.num 8, Val.num 7, Val.num 6, Val.num 5] = none ∧
     calc_r2 [Val.num 1, Val.num 2, Val.num 3, Val.num 4, Val.num 5]
        [Val.num 9, Val.num 8, Val.num 7, Val.num 6, Val.num 5] = Val.nan ∧
     ∀ t2 r2 : List Val,
       ((calc_rmse t2 r2).isSome → 10 ≤ (finitePairs t2 r2).length) ∧
       (calc_r2 t2 r2 ≠ Val.nan → 10 ≤ (finitePairs t2 r2).length)) :=
  ⟨by decide, extended_metrics_sample_gate _ _ (by decide)⟩

/-! ## The offset-search primitive `find_offset` (src/_analyze_lia.py)

The source normalizes both grids to zero mean and unit variance and then
compares floating-point Pearson correlations.  The embedding is exact,
and every decision the source takes on floats is taken here on integers,
through identities that hold exactly:

* `toZ g` multiplies every entry of the rational grid by `gridDen g`,
  the (positive) product of all entry denominators, yielding an integer
  grid that is the input grid up to one positive scale factor
  (`gridDen_scale` below);
* the float test `grid.std() < 1e-6` is equivalent to
  `var < 10⁻¹²`, i.e. to `(n·Σx² − (Σx)²)·10¹² < n²`, and after the
  `gridDen` scaling to `gridVarZ (toZ g)·10¹² < gridDen g²·n²` — decided
  on integers (false for an empty grid, where numpy produces NaN and the
  NaN comparison is false);
* the source then forms `(grid - mean)/std`; `centreS` instead forms
  `n·toZ g − Σ(toZ g)`, which is the same grid scaled by the positive
  factor `n · gridDen g · std`.  A positive scaling of either grid
  changes neither the set of zero entries (the mask `!= 0`), nor the
  constant zero fill of the shift, nor any Pearson correlation computed
  from masked entries, nor therefore any comparison of correlations;
* a correlation value `cov/√(varx·vary)` is carried as the exact integer
  pair `(cov, varx·vary)` and the float comparison `corr > best` is
  decided by sign analysis and comparison of squares (`scoreGT`), which
  agrees with the real-number comparison (`scoreGT_iff_val` below);
* `np.corrcoef` returns NaN on a zero-variance masked sample; NaN never
  compares greater than the best seen, so such a candidate never wins —
  modelled by an absent (`none`) score. -/

/-- A raster grid as read by the analysis scripts: rows of cells. -/
abbrev Grid := List (List Val)

/-- Builds a grid of finite cells from rational rows. -/
def mkGrid (rows : List (List ℚ)) : Grid := rows.map (List.map Val.num)

/-- First step of `find_offset`: replace every non-finite entry by zero
(`ref[~np.isfinite(ref)] = 0`). -/
def zeroNF (g : Grid) : List (List ℚ) :=
  g.map (List.map fun v => match v with | Val.nan => 0 | Val.num q => q)

/-- All entries of a rational grid in row-major order. -/
def flatQ (g : List (List ℚ)) : List ℚ := g.flatten

/-- All entries of an integer grid in row-major order. -/
def flatZ (g : List (List ℤ)) : List ℤ := g.flatten

/-- The product of the denominators of all entries of the grid (positive). -/
def gridDen (g : List (List ℚ)) : ℤ :=
  ((flatQ g).map fun x => (x.den : ℤ)).prod

/-- The grid multiplied entrywise by `gridDen g`: an integer grid equal to
the input up to one positive scale factor (each division is exact since
every entry denominator divides `gridDen g`; see `gridDen_scale`). -/
def toZ (g : List (List ℚ)) : List (List ℤ) :=
  g.map (List.map fun x => x.num * (gridDen g / (x.den : ℤ)))

/-- Sum of all entries of an integer grid. -/
def sumZ (w : List (List ℤ)) : ℤ := (flatZ w).sum

/-- `n·Σx² − (Σx)²` over all entries: the population variance of the grid
scaled by `n²` (nonnegative, zero exactly for a constant grid). -/
def gridVarZ (w : List (List ℤ)) : ℤ :=
  let l := flatZ w
  l.length * (l.map fun x => x ^ 2).sum - l.sum ^ 2

/-- The degeneracy test `grid.std() < 1e-6` of the source, decided exactly:
for a nonempty grid, `std < 10⁻⁶ ↔ var < 10⁻¹² ↔ (n·Σx²−(Σx)²)·10¹² < n²`,
which after the entrywise `gridDen` scaling reads
`gridVarZ (toZ g)·10¹² < gridDen g²·n²`; an empty grid gives NaN in numpy,
and a NaN comparison is false. -/
def stdBelow (g : List (List ℚ)) : Bool :=
  let n := (flatQ g).length
  decide (0 < n) &&
    decide (gridVarZ (toZ g) * 10 ^ 12 < gridDen g ^ 2 * (n : ℤ) ^ 2)

/-- The normalization `(grid - grid.mean())/grid.std()` of the source, as
the integer grid `n·toZ g − Σ(toZ g)`: the same grid scaled by the positive
factor `n · gridDen g · std` (the grid passed the `stdBelow` gate, so
`std > 0`), which preserves every decision taken downstream, as explained
in the section comment. -/
def centreS (g : List (List ℚ)) : List (List ℤ) :=
  let w := toZ g
  let n : ℤ := (flatQ g).length
  let s := sumZ w
  w.map (List.map fun x => n * x - s)

/-- Entry of an integer grid at a (possibly negative) pair of indices;
positions outside the frame read as 0, matching the constant zero fill of
`scipy.ndimage.shift(..., order=0, mode='constant')`. -/
def getZ (g : List (List ℤ)) (i j : ℤ) : ℤ :=
  if 0 ≤ i ∧ 0 ≤ j then (g.getD i.toNat []).getD j.toNat 0 else 0

/-- The candidate shifts in the scan order of the source: `dy` ascending in
the outer loop, `dx` ascending in the inner loop, both over
`[-max_shift, max_shift]`. -/
def candList (m : ℕ) : List (ℤ × ℤ) :=
  (((List.range (2 * m + 1)).map fun (i : ℕ) => (i : ℤ) - (m : ℤ)).flatMap fun dy =>
    ((List.range (2 * m + 1)).map fun (i : ℕ) => (i : ℤ) - (m : ℤ)).map fun dx => (dy, dx))

/-- The jointly nonzero sample pairs of the reference grid and the test grid
shifted by `(dy, dx)`: position `(i,j)` of the shifted grid holds the test
entry at `(i-dy, j-dx)` (zero fill outside), and the pair is kept when both
values are nonzero (`valid = (ref != 0) & (shifted != 0)`). -/
def maskPairs (ref test : List (List ℤ)) (dy dx : ℤ) : List (ℤ × ℤ) :=
  (List.range ref.length).flatMap fun i =>
    (List.range (ref.headD []).length).filterMap fun j =>
      let a := getZ ref (i : ℤ) (j : ℤ)
      let b := getZ test ((i : ℤ) - dy) ((j : ℤ) - dx)
      if a ≠ 0 ∧ b ≠ 0 then some (a, b) else none

/-- A correlation-comparison value: `q x` denotes the integer `x` itself
(the initial best `-999` of the source); `corr u v` denotes the real number
`u / √v`, the Pearson correlation kept in exact form (`0 < v` wherever the
algorithm builds it). -/
inductive Score where
  | q (x : ℤ) : Score
  | corr (u v : ℤ) : Score
deriving DecidableEq, Repr

/-- The real number denoted by a score. -/
noncomputable def Score.val : Score → ℝ
  | Score.q x => (x : ℝ)
  | Score.corr u v => (u : ℝ) / Real.sqrt ((v : ℤ) : ℝ)

/-- Decides the float comparison `corr > best` of the source exactly:
`scoreGT a b = true ↔ a.val > b.val` (theorem `scoreGT_iff_val`), by sign
analysis plus comparison of squares in place of the square root. -/
def scoreGT : Score → Score → Bool
  | Score.q x, Score.q y => decide (y < x)
  | Score.corr u v, Score.q b =>
      if 0 ≤ b then decide (0 < u ∧ b ^ 2 * v < u ^ 2)
      else decide (0 ≤ u ∨ u ^ 2 < b ^ 2 * v)
  | Score.q a, Score.corr u v =>
      if 0 ≤ u then decide (0 < a ∧ u ^ 2 < a ^ 2 * v)
      else decide (0 ≤ a ∨ a ^ 2 * v < u ^ 2)
  | Score.corr u₁ v₁, Score.corr u₂ v₂ =>
      if 0 ≤ u₁ then
        if 0 ≤ u₂ then decide (u₂ ^ 2 * v₁ < u₁ ^ 2 * v₂) else true
      else
        if 0 ≤ u₂ then false else decide (u₁ ^ 2 * v₂ < u₂ ^ 2 * v₁)

/-- Correlation score of a masked sample list: `none` models the NaN that
`np.corrcoef` yields on a zero-variance sample. -/
def scoreOf (ps : List (ℤ × ℤ)) : Option Score :=
  if varX ps = 0 ∨ varY ps = 0 then none
  else some (Score.corr (covS ps) (varX ps * varY ps))

/-- Effective score of the candidate shift `c`: `none` when the jointly
nonzero mask has fewer than 50 pixels (the candidate is skipped before any
correlation is computed) or when the correlation is NaN. -/
def candScore (ref test : List (List ℤ)) (c : ℤ × ℤ) : Option Score :=
  let ps := maskPairs ref test c.1 c.2
  if ps.length < 50 then none else scoreOf ps

/-- One step of the scan loop of `find_offset`: strict improvement only
(`if corr > best[0]`). -/
def offsetStep (ref test : List (List ℤ)) (acc : Score × (ℤ × ℤ)) (c : ℤ × ℤ) :
    Score × (ℤ × ℤ) :=
  match candScore ref test c with
  | none => acc
  | some s => if scoreGT s acc.1 then (s, c) else acc

/-- The full scan of `find_offset` over the candidate shifts, from the
initial best `(-999, (0, 0))` of the source. -/
def bestPair (ref test : List (List ℤ)) (m : ℕ) : Score × (ℤ × ℤ) :=
  (candList m).foldl (offsetStep ref test) (Score.q (-999), (0, 0))

/-- `find_offset` from `src/_analyze_lia.py`. -/
def find_offset (refIn testIn : Grid) (max_shift : ℕ) : ℤ × ℤ :=
  let ref := zeroNF refIn
  let test := zeroNF testIn
  if stdBelow ref || stdBelow test then (0, 0)
  else (bestPair (centreS ref) (centreS test) max_shift).2

section CauchySchwarz

/-- Cauchy–Schwarz for a list of integer pairs. -/
lemma list_cauchy (l : List (ℤ × ℤ)) :
    (l.map fun p => p.1 * p.2).sum ^ 2
      ≤ (l.map fun p => p.1 ^ 2).sum * (l.map fun p => p.2 ^ 2).sum := by
  induction l with
  | nil => simp
  | cons p l ih =>
      obtain ⟨a, b⟩ := p
      simp only [List.map_cons, List.sum_cons]
      have hP : 0 ≤ (l.map fun p => p.1 ^ 2).sum :=
        List.sum_nonneg (by
          intro x hx
          simp only [List.mem_map] at hx
          obtain ⟨p, -, rfl⟩ := hx
          positivity)
      have hQ : 0 ≤ (l.map fun p => p.2 ^ 2).sum :=
        List.sum_nonneg (by
          intro x hx
          simp only [List.mem_map] at hx
          obtain ⟨p, -, rfl⟩ := hx
          positivity)
      set S := (l.map fun p => p.1 * p.2).sum with hS
      set P := (l.map fun p => p.1 ^ 2).sum with hPd
      set Q := (l.map fun p => p.2 ^ 2).sum with hQd
      rcases hP.eq_or_lt with hP0 | hP0
      · have hS0 : S ^ 2 ≤ 0 := by rw [← hP0] at ih; simpa using ih
        have hSz : S = 0 := by nlinarith [sq_nonneg S]
        rw [hSz, ← hP0]
        nlinarith [sq_nonneg a, sq_nonneg b, mul_nonneg (sq_nonneg a) hQ]
      · nlinarith [sq_nonneg (a * S - b * P), mul_pos hP0 hP0, sq_nonneg (a * b)]

lemma sum_map_one (ps : List (ℤ × ℤ)) : (ps.map fun _ => (1 : ℤ)).sum = (ps.length : ℤ) := by
  induction ps with
  | nil => simp
  | cons p ps ih => simp [ih]; ring

/-- The scaled variance of the first components is nonnegative. -/
lemma varX_nonneg (ps : List (ℤ × ℤ)) : 0 ≤ varX ps := by
  have h := list_cauchy (ps.map fun p => (p.1, 1))
  simp only [List.map_map, Function.comp_def, mul_one, one_pow] at h
  rw [sum_map_one ps] at h
  have h1 : (ps.map fun p => p.1).sum = sumX ps := rfl
  have h2 : (ps.map fun p => p.1 ^ 2).sum = sumX2 ps := rfl
  rw [h1, h2] at h
  unfold varX
  nlinarith [h]

/-- The scaled variance of the second components is nonnegative. -/
lemma varY_nonneg (ps : List (ℤ × ℤ)) : 0 ≤ varY ps := by
  have h := list_cauchy (ps.map fun p => (p.2, 1))
  simp only [List.map_map, Function.comp_def, mul_one, one_pow] at h
  rw [sum_map_one ps] at h
  have h1 : (ps.map fun p => p.2).sum = sumY ps := rfl
  have h2 : (ps.map fun p => p.2 ^ 2).sum = sumY2 ps := rfl
  rw [h1, h2] at h
  unfold varY
  nlinarith [h]

lemma sum_mul_centred (n sx sy : ℤ) (ps : List (ℤ × ℤ)) :
    (ps.map fun p => (n * p.1 - sx) * (n * p.2 - sy)).sum
      = n ^ 2 * sumXY ps - n * sx * sumY ps - n * sy * sumX ps
        + ps.length * (sx * sy) := by
  induction ps with
  | nil => simp [sumXY, sumX, sumY]
  | cons p ps ih =>
      simp only [List.map_cons, List.sum_cons, sumXY, sumX, sumY,
        List.length_cons] at ih ⊢
      rw [ih]
      push_cast
      ring

lemma sum_sq1_centred (n sx : ℤ) (ps : List (ℤ × ℤ)) :
    (ps.map fun p => (n * p.1 - sx) ^ 2).sum
      = n ^ 2 * sumX2 ps - 2 * n * sx * sumX ps + ps.length * sx ^ 2 := by
  induction ps with
  | nil => simp [sumX2, sumX]
  | cons p ps ih =>
      simp only [List.map_cons, List.sum_cons, sumX2, sumX, List.length_cons] at ih ⊢
      push_cast
      rw [ih]
      ring

lemma sum_sq2_centred (n sy : ℤ) (ps : List (ℤ × ℤ)) :
    (ps.map fun p => (n * p.2 - sy) ^ 2).sum
      = n ^ 2 * sumY2 ps - 2 * n * sy * sumY ps + ps.length * sy ^ 2 := by
  induction ps with
  | nil => simp [sumY2, sumY]
  | cons p ps ih =>
      simp only [List.map_cons, List.sum_cons, sumY2, sumY, List.length_cons] at ih ⊢
      push_cast
      rw [ih]
      ring

/-- Cauchy–Schwarz in the centred form used by the correlation scores. -/
lemma covS_sq_le (ps : List (ℤ × ℤ)) : covS ps ^ 2 ≤ varX ps * varY ps := by
  rcases Nat.eq_zero_or_pos ps.length with h0 | hpos
  · rw [List.length_eq_zero] at h0
    subst h0
    simp [covS, varX, varY, sumXY, sumX, sumY, sumX2, sumY2]
  · set n : ℤ := (ps.length : ℤ) with hn
    have hnpos : 0 < n := by rw [hn]; exact_mod_cast hpos
    have h := list_cauchy (ps.map fun p => (n * p.1 - sumX ps, n * p.2 - sumY ps))
    simp only [List.map_map] at h
    have e1 : (ps.map ((fun p => p.1 * p.2) ∘
        fun p => (n * p.1 - sumX ps, n * p.2 - sumY ps))).sum = n * covS ps := by
      have := sum_mul_centred n (sumX ps) (sumY ps) ps
      unfold covS
      rw [show (ps.map ((fun p => p.1 * p.2) ∘
          fun p => (n * p.1 - sumX ps, n * p.2 - sumY ps)))
          = ps.map fun p => (n * p.1 - sumX ps) * (n * p.2 - sumY ps) from rfl]
      rw [this, ← hn]
      ring
    have e2 : (ps.map ((fun p => p.1 ^ 2) ∘
        fun p => (n * p.1 - sumX ps, n * p.2 - sumY ps))).sum = n * varX ps := by
      have := sum_sq1_centred n (sumX ps) ps
      unfold varX
      rw [show (ps.map ((fun p => p.1 ^ 2) ∘
          fun p => (n * p.1 - sumX ps, n * p.2 - sumY ps)))
          = ps.map fun p => (n * p.1 - sumX ps) ^ 2 from rfl]
      rw [this, ← hn]
      ring
    have e3 : (ps.map ((fun p => p.2 ^ 2) ∘
        fun p => (n * p.1 - sumX ps, n * p.2 - sumY ps))).sum = n * varY ps := by
      have := sum_sq2_centred n (sumY ps) ps
      unfold varY
      rw [show (ps.map ((fun p => p.2 ^ 2) ∘
          fun p => (n * p.1 - sumX ps, n * p.2 - sumY ps)))
          = ps.map fun p => (n * p.2 - sumY ps) ^ 2 from rfl]
      rw [this, ← hn]
      ring
    rw [e1, e2, e3] at h
    have hn2 : 0 < n ^ 2 := by positivity
    nlinarith [h]

end CauchySchwarz

section ScoreBridge

/-- Well-formedness of a score: a `corr` score carries a positive radicand. -/
def Score.WF : Score → Prop
  | Score.q _ => True
  | Score.corr _ v => 0 < v

lemma sq_lt_sq_iff_nonneg {a b : ℝ} (ha : 0 ≤ a) (hb : 0 ≤ b) :
    a ^ 2 < b ^ 2 ↔ a < b := by
  constructor
  · intro h; nlinarith
  · intro h; nlinarith

lemma lt_div_sqrt_iff (b u V : ℝ) (hV : 0 < V) :
    (b < u / Real.sqrt V)
      ↔ (if 0 ≤ b then 0 < u ∧ b ^ 2 * V < u ^ 2 else 0 ≤ u ∨ u ^ 2 < b ^ 2 * V) := by
  have hs : (0 : ℝ) < Real.sqrt V := Real.sqrt_pos.mpr hV
  have hs2 : Real.sqrt V ^ 2 = V := Real.sq_sqrt hV.le
  rw [lt_div_iff₀ hs]
  split_ifs with hb
  · constructor
    · intro h
      have hbs : 0 ≤ b * Real.sqrt V := mul_nonneg hb hs.le
      have hu : 0 < u := lt_of_le_of_lt hbs h
      refine ⟨hu, ?_⟩
      have : (b * Real.sqrt V) ^ 2 < u ^ 2 :=
        (sq_lt_sq_iff_nonneg hbs hu.le).mpr h
      nlinarith [this, hs2]
    · rintro ⟨hu, hlt⟩
      have hbs : 0 ≤ b * Real.sqrt V := mul_nonneg hb hs.le
      have hsq : (b * Real.sqrt V) ^ 2 < u ^ 2 := by nlinarith [hs2]
      exact (sq_lt_sq_iff_nonneg hbs hu.le).mp hsq
  · push_neg at hb
    have hbs : b * Real.sqrt V < 0 := mul_neg_of_neg_of_pos hb hs
    constructor
    · intro h
      by_cases hu : 0 ≤ u
      · exact Or.inl hu
      · push_neg at hu
        right
        have h1 : (-u) ^ 2 < (-(b * Real.sqrt V)) ^ 2 :=
          (sq_lt_sq_iff_nonneg (by linarith) (by linarith)).mpr (by linarith)
        nlinarith [h1, hs2]
    · rintro (hu | hlt)
      · calc b * Real.sqrt V < 0 := hbs
          _ ≤ u := hu
      · by_cases hu : 0 ≤ u
        · calc b * Real.sqrt V < 0 := hbs
            _ ≤ u := hu
        · push_neg at hu
          have h1 : (-u) ^ 2 < (-(b * Real.sqrt V)) ^ 2 := by nlinarith [hs2]
          have h2 : -u < -(b * Real.sqrt V) :=
            (sq_lt_sq_iff_nonneg (by linarith) (by linarith)).mp h1
          linarith

lemma div_sqrt_lt_iff (a u V : ℝ) (hV : 0 < V) :
    (u / Real.sqrt V < a)
      ↔ (if 0 ≤ u then 0 < a ∧ u ^ 2 < a ^ 2 * V else 0 ≤ a ∨ a ^ 2 * V < u ^ 2) := by
  have hs : (0 : ℝ) < Real.sqrt V := Real.sqrt_pos.mpr hV
  have hs2 : Real.sqrt V ^ 2 = V := Real.sq_sqrt hV.le
  rw [div_lt_iff₀ hs]
  split_ifs with hu
  · constructor
    · intro h
      have has : 0 < a * Real.sqrt V := lt_of_le_of_lt hu h
      have ha : 0 < a := by nlinarith [has, hs]
      refine ⟨ha, ?_⟩
      have : u ^ 2 < (a * Real.sqrt V) ^ 2 := (sq_lt_sq_iff_nonneg hu has.le).mpr h
      nlinarith [this, hs2]
    · rintro ⟨ha, hlt⟩
      have has : 0 < a * Real.sqrt V := mul_pos ha hs
      have hsq : u ^ 2 < (a * Real.sqrt V) ^ 2 := by nlinarith [hs2]
      exact (sq_lt_sq_iff_nonneg hu has.le).mp hsq
  · push_neg at hu
    constructor
    · intro h
      by_cases ha : 0 ≤ a
      · exact Or.inl ha
      · push_neg at ha
        right
        have has : a * Real.sqrt V < 0 := mul_neg_of_neg_of_pos ha hs
        have h1 : (-(a * Real.sqrt V)) ^ 2 < (-u) ^ 2 :=
          (sq_lt_sq_iff_nonneg (by linarith) (by linarith)).mpr (by linarith)
        nlinarith [h1, hs2]
    · rintro (ha | hlt)
      · calc u < 0 := hu
          _ ≤ a * Real.sqrt V := mul_nonneg ha hs.le
      · by_cases ha : 0 ≤ a
        · calc u < 0 := hu
            _ ≤ a * Real.sqrt V := mul_nonneg ha hs.le
        · push_neg at ha
          have has : a * Real.sqrt V < 0 := mul_neg_of_neg_of_pos ha hs
          have h1 : (-(a * Real.sqrt V)) ^ 2 < (-u) ^ 2 := by nlinarith [hs2]
          have h2 : -(a * Real.sqrt V) < -u :=
            (sq_lt_sq_iff_nonneg (by linarith) (by linarith)).mp h1
          linarith

lemma div_sqrt_lt_div_sqrt_iff (u₁ V₁ u₂ V₂ : ℝ) (h₁ : 0 < V₁) (h₂ : 0 < V₂) :
    (u₂ / Real.sqrt V₂ < u₁ / Real.sqrt V₁)
      ↔ (if 0 ≤ u₁ then
           (if 0 ≤ u₂ then u₂ ^ 2 * V₁ < u₁ ^ 2 * V₂ else True)
         else
           (if 0 ≤ u₂ then False else u₁ ^ 2 * V₂ < u₂ ^ 2 * V₁)) := by
  have hs₁ : (0 : ℝ) < Real.sqrt V₁ := Real.sqrt_pos.mpr h₁
  have hs₂ : (0 : ℝ) < Real.sqrt V₂ := Real.sqrt_pos.mpr h₂
  have hsq₁ : Real.sqrt V₁ ^ 2 = V₁ := Real.sq_sqrt h₁.le
  have hsq₂ : Real.sqrt V₂ ^ 2 = V₂ := Real.sq_sqrt h₂.le
  rw [div_lt_div_iff₀ hs₂ hs₁]
  split_ifs with hu₁ hu₂ hu₂
  · constructor
    · intro h
      have hl : 0 ≤ u₂ * Real.sqrt V₁ := mul_nonneg hu₂ hs₁.le
      have : (u₂ * Real.sqrt V₁) ^ 2 < (u₁ * Real.sqrt V₂) ^ 2 :=
        (sq_lt_sq_iff_nonneg hl (by linarith)).mpr h
      nlinarith [this, hsq₁, hsq₂]
    · intro h
      have hl : 0 ≤ u₂ * Real.sqrt V₁ := mul_nonneg hu₂ hs₁.le
      have hr : 0 ≤ u₁ * Real.sqrt V₂ := mul_nonneg hu₁ hs₂.le
      have hsq : (u₂ * Real.sqrt V₁) ^ 2 < (u₁ * Real.sqrt V₂) ^ 2 := by
        nlinarith [hsq₁, hsq₂]
      exact (sq_lt_sq_iff_nonneg hl hr).mp hsq
  · push_neg at hu₂
    simp only [iff_true]
    calc u₂ * Real.sqrt V₁ < 0 := mul_neg_of_neg_of_pos hu₂ hs₁
      _ ≤ u₁ * Real.sqrt V₂ := mul_nonneg hu₁ hs₂.le
  · push_neg at hu₁
    simp only [iff_false, not_lt]
    exact le_of_lt (lt_of_lt_of_le (mul_neg_of_neg_of_pos hu₁ hs₂)
      (mul_nonneg hu₂ hs₁.le))
  · push_neg at hu₁ hu₂
    have hl : u₂ * Real.sqrt V₁ < 0 := mul_neg_of_neg_of_pos hu₂ hs₁
    have hr : u₁ * Real.sqrt V₂ < 0 := mul_neg_of_neg_of_pos hu₁ hs₂
    constructor
    · intro h
      have : (-(u₁ * Real.sqrt V₂)) ^ 2 < (-(u₂ * Real.sqrt V₁)) ^ 2 :=
        (sq_lt_sq_iff_nonneg (by linarith) (by linarith)).mpr (by linarith)
      nlinarith [this, hsq₁, hsq₂]
    · intro h
      have hsq : (-(u₁ * Real.sqrt V₂)) ^ 2 < (-(u₂ * Real.sqrt V₁)) ^ 2 := by
        nlinarith [hsq₁, hsq₂]
      have h2 : -(u₁ * Real.sqrt V₂) < -(u₂ * Real.sqrt V₁) :=
        (sq_lt_sq_iff_nonneg (by linarith) (by linarith)).mp hsq
      linarith

/-- The exact comparison `scoreGT` agrees with the real comparison of the
denoted values. -/
theorem scoreGT_iff_val (a b : Score) (ha : a.WF) (hb : b.WF) :
    scoreGT a b = true ↔ b.val < a.val := by
  cases a with
  | q x =>
    cases b with
    | q y =>
        simp only [scoreGT, Score.val, decide_eq_true_eq, Int.cast_lt]
    | corr u v =>
        have hv : (0 : ℝ) < ((v : ℤ) : ℝ) := by exact_mod_cast hb
        simp only [scoreGT, Score.val]
        rw [div_sqrt_lt_iff _ _ _ hv]
        by_cases hu : (0 : ℤ) ≤ u
        · have hu' : (0 : ℝ) ≤ ((u : ℤ) : ℝ) := by exact_mod_cast hu
          rw [if_pos hu, if_pos hu']
          rw [decide_eq_true_eq]
          constructor
          · rintro ⟨h1, h2⟩
            exact ⟨by exact_mod_cast h1, by exact_mod_cast h2⟩
          · rintro ⟨h1, h2⟩
            exact ⟨by exact_mod_cast h1, by exact_mod_cast h2⟩
        · have hu' : ¬ (0 : ℝ) ≤ ((u : ℤ) : ℝ) := by exact_mod_cast hu
          rw [if_neg hu, if_neg hu']
          rw [decide_eq_true_eq]
          constructor
          · rintro (h1 | h2)
            · exact Or.inl (by exact_mod_cast h1)
            · exact Or.inr (by exact_mod_cast h2)
          · rintro (h1 | h2)
            · exact Or.inl (by exact_mod_cast h1)
            · exact Or.inr (by exact_mod_cast h2)
  | corr u v =>
    cases b with
    | q y =>
        have hv : (0 : ℝ) < ((v : ℤ) : ℝ) := by exact_mod_cast ha
        simp only [scoreGT, Score.val]
        rw [lt_div_sqrt_iff _ _ _ hv]
        by_cases hy : (0 : ℤ) ≤ y
        · have hy' : (0 : ℝ) ≤ ((y : ℤ) : ℝ) := by exact_mod_cast hy
          rw [if_pos hy, if_pos hy']
          rw [decide_eq_true_eq]
          constructor
          · rintro ⟨h1, h2⟩
            exact ⟨by exact_mod_cast h1, by exact_mod_cast h2⟩
          · rintro ⟨h1, h2⟩
            exact ⟨by exact_mod_cast h1, by exact_mod_cast h2⟩
        · have hy' : ¬ (0 : ℝ) ≤ ((y : ℤ) : ℝ) := by exact_mod_cast hy
          rw [if_neg hy, if_neg hy']
          rw [decide_eq_true_eq]
          constructor
          · rintro (h1 | h2)
            · exact Or.inl (by exact_mod_cast h1)
            · exact Or.inr (by exact_mod_cast h2)
          · rintro (h1 | h2)
            · exact Or.inl (by exact_mod_cast h1)
            · exact Or.inr (by exact_mod_cast h2)
    | corr u₂ v₂ =>
        have hv₁ : (0 : ℝ) < ((v : ℤ) : ℝ) := by exact_mod_cast ha
        have hv₂ : (0 : ℝ) < ((v₂ : ℤ) : ℝ) := by exact_mod_cast hb
        simp only [scoreGT, Score.val]
        rw [div_sqrt_lt_div_sqrt_iff _ _ _ _ hv₁ hv₂]
        by_cases hu₁ : (0 : ℤ) ≤ u
        · have hu₁' : (0 : ℝ) ≤ ((u : ℤ) : ℝ) := by exact_mod_cast hu₁
          rw [if_pos hu₁, if_pos hu₁']
          by_cases hu₂ : (0 : ℤ) ≤ u₂
          · have hu₂' : (0 : ℝ) ≤ ((u₂ : ℤ) : ℝ) := by exact_mod_cast hu₂
            rw [if_pos hu₂, if_pos hu₂']
            rw [decide_eq_true_eq]
            constructor
            · intro h; exact_mod_cast h
            · intro h; exact_mod_cast h
          · have hu₂' : ¬ (0 : ℝ) ≤ ((u₂ : ℤ) : ℝ) := by exact_mod_cast hu₂
            rw [if_neg hu₂, if_neg hu₂']
            simp
        · have hu₁' : ¬ (0 : ℝ) ≤ ((u : ℤ) : ℝ) := by exact_mod_cast hu₁
          rw [if_neg hu₁, if_neg hu₁']
          by_cases hu₂ : (0 : ℤ) ≤ u₂
          · have hu₂' : (0 : ℝ) ≤ ((u₂ : ℤ) : ℝ) := by exact_mod_cast hu₂
            rw [if_pos hu₂, if_pos hu₂']
            simp
          · have hu₂' : ¬ (0 : ℝ) ≤ ((u₂ : ℤ) : ℝ) := by exact_mod_cast hu₂
            rw [if_neg hu₂, if_neg hu₂']
            rw [decide_eq_true_eq]
            constructor
            · intro h; exact_mod_cast h
            · intro h; exact_mod_cast h

/-- A correlation score whose covariance satisfies Cauchy–Schwarz denotes a
value of at least −1, so it always beats the initial best `-999`. -/
lemma initial_lt_corr (u v : ℤ) (hv : 0 < v) (hle : u ^ 2 ≤ v) :
    (Score.q (-999)).val < (Score.corr u v).val := by
  have hv' : (0 : ℝ) < ((v : ℤ) : ℝ) := by exact_mod_cast hv
  have hle' : ((u : ℤ) : ℝ) ^ 2 ≤ ((v : ℤ) : ℝ) := by exact_mod_cast hle
  have hs : (0 : ℝ) < Real.sqrt ((v : ℤ) : ℝ) := Real.sqrt_pos.mpr hv'
  have hs2 : Real.sqrt ((v : ℤ) : ℝ) ^ 2 = ((v : ℤ) : ℝ) := Real.sq_sqrt hv'.le
  have hns : -Real.sqrt ((v : ℤ) : ℝ) ≤ ((u : ℤ) : ℝ) := by
    nlinarith [sq_nonneg (((u : ℤ) : ℝ) + Real.sqrt ((v : ℤ) : ℝ))]
  have hgeone : (-1 : ℝ) ≤ ((u : ℤ) : ℝ) / Real.sqrt ((v : ℤ) : ℝ) := by
    rw [le_div_iff₀ hs]
    linarith
  simp only [Score.val]
  have : ((-999 : ℤ) : ℝ) < -1 := by norm_num
  linarith

end ScoreBridge

/-- An 8×8 column-gradient grid: every row is `1, 2, …, 8`.  Nondegenerate
(variance 5.25, all 64 centred entries nonzero), yet shifting it one row up
reproduces it exactly on the 56-pixel overlap, so the first candidate shift
passing the 50-pixel gate, `(-1, 0)`, already attains perfect correlation. -/
def gradGrid : Grid := mkGrid
  [[1, 2, 3, 4, 5, 6, 7, 8],
   [1, 2, 3, 4, 5, 6, 7, 8],
   [1, 2, 3, 4, 5, 6, 7, 8],
   [1, 2, 3, 4, 5, 6, 7, 8],
   [1, 2, 3, 4, 5, 6, 7, 8],
   [1, 2, 3, 4, 5, 6, 7, 8],
   [1, 2, 3, 4, 5, 6, 7, 8],
   [1, 2, 3, 4, 5, 6, 7, 8]]

/-- A 10×10 grid of 100 pairwise distinct values (a fixed shuffle of
`1, …, 100`), realizing the "10×10 grid of distinct random values" of the
specification's testable property for `find_offset`. -/
def g10 : Grid := mkGrid
  [[34, 26, 100, 85, 79, 82, 22, 94, 83, 2],
   [23, 1, 62, 74, 25, 50, 27, 45, 77, 80],
   [48, 3, 52, 39, 15, 49, 11, 33, 17, 95],
   [66, 70, 43, 60, 89, 99, 67, 92, 58, 30],
   [21, 88, 35, 61, 32, 14, 64, 4, 57, 87],
   [46, 63, 59, 24, 93, 41, 37, 68, 72, 81],
   [44, 53, 36, 40, 76, 19, 97, 38, 18, 6],
   [91, 96, 98, 78, 29, 16, 73, 90, 55, 71],
   [86, 31, 9, 54, 56, 12, 5, 28, 65, 8],
   [75, 47, 13, 69, 10, 7, 84, 51, 20, 42]]

/-- A 5×5 grid of distinct values: nondegenerate, but too small for any
candidate shift to reach the 50-pixel gate. -/
def g5 : Grid := mkGrid
  [[1, 2, 3, 4, 5], [6, 7, 8, 9, 10], [11, 12, 13, 14, 15],
   [16, 17, 18, 19, 20], [21, 22, 23, 24, 25]]

/-- The all-constant 10×10 grid of value 5 from the specification's
degenerate-input testable property (standard deviation 0). -/
def constGrid : Grid := mkGrid (List.replicate 10 (List.replicate 10 5))

/-- Lexicographic order on candidate shifts: the scan order of the source
(`dy` ascending outer, `dx` ascending inner). -/
def lexLT (c d : ℤ × ℤ) : Prop := c.1 < d.1 ∨ (c.1 = d.1 ∧ c.2 < d.2)

lemma lexLT_irrefl (c : ℤ × ℤ) : ¬ lexLT c c := by
  simp [lexLT]

lemma lexLT_asymm {c d : ℤ × ℤ} (h1 : lexLT c d) (h2 : lexLT d c) : False := by
  rcases h1 with h1 | ⟨e1, h1⟩ <;> rcases h2 with h2 | ⟨e2, h2⟩ <;> omega

/-- The candidate list enumerates exactly the square
`[-max_shift, max_shift]²`. -/
lemma mem_candList (m : ℕ) (c : ℤ × ℤ) :
    c ∈ candList m
      ↔ (-(m : ℤ) ≤ c.1 ∧ c.1 ≤ m ∧ -(m : ℤ) ≤ c.2 ∧ c.2 ≤ m) := by
  unfold candList
  constructor
  · intro h
    obtain ⟨dy, hdy, hc⟩ := List.mem_flatMap.mp h
    obtain ⟨i, hiR, rfl⟩ := List.mem_map.mp hdy
    obtain ⟨dx, hdx, hcc⟩ := List.mem_map.mp hc
    obtain ⟨j, hjR, rfl⟩ := List.mem_map.mp hdx
    rw [List.mem_range] at hiR hjR
    rw [← hcc]
    refine ⟨?_, ?_, ?_, ?_⟩ <;> simp <;> omega
  · rintro ⟨h1, h2, h3, h4⟩
    refine List.mem_flatMap.mpr ⟨c.1,
      List.mem_map.mpr ⟨(c.1 + m).toNat, List.mem_range.mpr (by omega), by omega⟩,
      List.mem_map.mpr ⟨c.2,
        List.mem_map.mpr ⟨(c.2 + m).toNat, List.mem_range.mpr (by omega), by omega⟩, ?_⟩⟩
    simp

/-- The candidate list is strictly increasing in the scan order. -/
lemma candList_pairwise (m : ℕ) : (candList m).Pairwise lexLT := by
  unfold candList
  rw [List.pairwise_flatMap]
  have hrange : ((List.range (2 * m + 1)).map
      fun (i : ℕ) => (i : ℤ) - (m : ℤ)).Pairwise (· < ·) := by
    rw [List.pairwise_map]
    refine (List.pairwise_lt_range (2 * m + 1)).imp ?_
    intro a b h
    omega
  constructor
  · intro dy hdy
    rw [List.pairwise_map]
    refine hrange.imp ?_
    intro a b h
    exact Or.inr ⟨rfl, h⟩
  · refine hrange.imp ?_
    intro a b h x hx y hy
    simp only [List.mem_map] at hx hy
    obtain ⟨dx1, -, rfl⟩ := hx
    obtain ⟨dx2, -, rfl⟩ := hy
    exact Or.inl h

/-- Facts carried by an accepted candidate score: the mask passed the
50-pixel gate, the radicand is positive, and the denoted correlation is at
least −1, hence above the initial best −999. -/
lemma candScore_some {ref test : List (List ℤ)} {c : ℤ × ℤ} {s : Score}
    (h : candScore ref test c = some s) :
    50 ≤ (maskPairs ref test c.1 c.2).length ∧ s.WF ∧
      (Score.q (-999)).val < s.val := by
  unfold candScore at h
  by_cases hlen : (maskPairs ref test c.1 c.2).length < 50
  · simp [hlen] at h
  · simp only [hlen, if_false, if_neg hlen] at h
    unfold scoreOf at h
    by_cases hv : varX (maskPairs ref test c.1 c.2) = 0
          ∨ varY (maskPairs ref test c.1 c.2) = 0
    · simp [hv] at h
    · simp only [hv, if_false, if_neg hv, Option.some.injEq] at h
      push_neg at hv
      have hx : 0 < varX (maskPairs ref test c.1 c.2) :=
        lt_of_le_of_ne (varX_nonneg _) (Ne.symm hv.1)
      have hy : 0 < varY (maskPairs ref test c.1 c.2) :=
        lt_of_le_of_ne (varY_nonneg _) (Ne.symm hv.2)
      have hvv : 0 < varX (maskPairs ref test c.1 c.2)
          * varY (maskPairs ref test c.1 c.2) := mul_pos hx hy
      refine ⟨not_lt.mp hlen, ?_, ?_⟩
      · rw [← h]; exact hvv
      · rw [← h]
        exact initial_lt_corr _ _ hvv (covS_sq_le _)

/-- If no candidate passes its gate, the scan keeps its initial
accumulator. -/
lemma foldl_no_update (ref test : List (List ℤ)) (l : List (ℤ × ℤ))
    (acc : Score × (ℤ × ℤ)) (h : ∀ c ∈ l, candScore ref test c = none) :
    l.foldl (offsetStep ref test) acc = acc := by
  induction l generalizing acc with
  | nil => rfl
  | cons c l ih =>
      have hc : candScore ref test c = none := h c (List.mem_cons_self c l)
      have hstep : offsetStep ref test acc c = acc := by
        simp [offsetStep, hc]
      rw [List.foldl_cons, hstep]
      exact ih acc fun d hd => h d (List.mem_cons_of_mem c hd)

/-- The invariant of the scan loop: either no candidate ever improved on the
initial accumulator, or the scan result is the first candidate attaining the
maximal score — all earlier candidates score strictly below it, all later
ones at most it. -/
lemma foldl_offsetStep_spec (ref test : List (List ℤ)) (l : List (ℤ × ℤ))
    (acc : Score × (ℤ × ℤ)) (hWF : acc.1.WF) :
    (l.foldl (offsetStep ref test) acc).1.WF ∧
    ((l.foldl (offsetStep ref test) acc) = acc ∧
       (∀ c ∈ l, ∀ s, candScore ref test c = some s → s.val ≤ acc.1.val) ∨
     (∃ l₁ l₂,
        l = l₁ ++ (l.foldl (offsetStep ref test) acc).2 :: l₂ ∧
        candScore ref test (l.foldl (offsetStep ref test) acc).2
          = some (l.foldl (offsetStep ref test) acc).1 ∧
        acc.1.val < (l.foldl (offsetStep ref test) acc).1.val ∧
        (∀ c ∈ l₁, ∀ s, candScore ref test c = some s
           → s.val < (l.foldl (offsetStep ref test) acc).1.val) ∧
        (∀ c ∈ l₂, ∀ s, candScore ref test c = some s
           → s.val ≤ (l.foldl (offsetStep ref test) acc).1.val))) := by
  induction l generalizing acc with
  | nil =>
      refine ⟨hWF, Or.inl ⟨rfl, ?_⟩⟩
      intro c hc
      cases hc
  | cons c l ih =>
      rcases hsc : candScore ref test c with - | s
      · have hstep : offsetStep ref test acc c = acc := by
          simp [offsetStep, hsc]
        rw [List.foldl_cons, hstep]
        obtain ⟨hW, hcase⟩ := ih acc hWF
        refine ⟨hW, ?_⟩
        rcases hcase with ⟨hres, hall⟩ | ⟨l₁, l₂, heq, hsc2, hlt, h₁, h₂⟩
        · refine Or.inl ⟨hres, ?_⟩
          intro d hd s2 hds
          rcases List.mem_cons.mp hd with rfl | hd'
          · rw [hsc] at hds; cases hds
          · exact hall d hd' s2 hds
        · refine Or.inr ⟨c :: l₁, l₂, by rw [List.cons_append, ← heq], hsc2, hlt, ?_, h₂⟩
          intro d hd s2 hds
          rcases List.mem_cons.mp hd with rfl | hd'
          · rw [hsc] at hds; cases hds
          · exact h₁ d hd' s2 hds
      · have hWFs : s.WF := (candScore_some hsc).2.1
        by_cases hgt : scoreGT s acc.1 = true
        · have hlt0 : acc.1.val < s.val := (scoreGT_iff_val s acc.1 hWFs hWF).mp hgt
          have hstep : offsetStep ref test acc c = (s, c) := by
            simp [offsetStep, hsc, hgt]
          rw [List.foldl_cons, hstep]
          obtain ⟨hW, hcase⟩ := ih (s, c) hWFs
          refine ⟨hW, Or.inr ?_⟩
          rcases hcase with ⟨hres, hall⟩ | ⟨l₁, l₂, heq, hsc2, hlt, h₁, h₂⟩
          · refine ⟨[], l, ?_, ?_, ?_, ?_, ?_⟩
            · rw [hres]; rfl
            · rw [hres]; exact hsc
            · rw [hres]; exact hlt0
            · intro d hd; cases hd
            · intro d hd s2 hds
              have := hall d hd s2 hds
              rw [hres]; exact this
          · refine ⟨c :: l₁, l₂, by rw [List.cons_append, ← heq], hsc2, ?_, ?_, h₂⟩
            · linarith
            · intro d hd s2 hds
              rcases List.mem_cons.mp hd with rfl | hd'
              · rw [hsc] at hds
                injection hds with hds
                rw [← hds]
                exact hlt
              · exact h₁ d hd' s2 hds
        · have hle : s.val ≤ acc.1.val := by
            by_contra hcon
            exact hgt ((scoreGT_iff_val s acc.1 hWFs hWF).mpr (not_le.mp hcon))
          have hstep : offsetStep ref test acc c = acc := by
            simp [offsetStep, hsc, hgt]
          rw [List.foldl_cons, hstep]
          obtain ⟨hW, hcase⟩ := ih acc hWF
          refine ⟨hW, ?_⟩
          rcases hcase with ⟨hres, hall⟩ | ⟨l₁, l₂, heq, hsc2, hlt, h₁, h₂⟩
          · refine Or.inl ⟨hres, ?_⟩
            intro d hd s2 hds
            rcases List.mem_cons.mp hd with rfl | hd'
            · rw [hsc] at hds
              injection hds with hds
              rw [← hds]
              exact hle
            · exact hall d hd' s2 hds
          · refine Or.inr ⟨c :: l₁, l₂, by rw [List.cons_append, ← heq], hsc2, hlt, ?_, h₂⟩
            intro d hd s2 hds
            rcases List.mem_cons.mp hd with rfl | hd'
            · rw [hsc] at hds
              injection hds with hds
              rw [← hds]
              linarith
            · exact h₁ d hd' s2 hds

/-- For nondegenerate inputs, `find_offset` is the scan result over the
centred grids. -/
lemma find_offset_eq_bestPair (refIn testIn : Grid) (m : ℕ)
    (h1 : stdBelow (zeroNF refIn) = false)
    (h2 : stdBelow (zeroNF testIn) = false) :
    find_offset refIn testIn m
      = (bestPair (centreS (zeroNF refIn)) (centreS (zeroNF testIn)) m).2 := by
  unfold find_offset
  simp [h1, h2]

/-- The full statement of the scan discipline of `find_offset` for
nondegenerate inputs, over the centred grids and the scan result
`bestPair`: the result of `find_offset`, the scan order (`dy` ascending
outer, `dx` ascending inner over the full square, i.e. the candidate list
is `lexLT`-sorted and enumerates exactly `[-max_shift, max_shift]²`), the
impossibility of returning a candidate that failed the 50-pixel gate, that
no scored candidate beats the winner, and that the winner strictly beats
every scored candidate scanned before it (first-encountered maximum wins). -/
def OffsetScanSpec (refIn testIn : Grid) (m : ℕ) : Prop :=
  find_offset refIn testIn m
      = (bestPair (centreS (zeroNF refIn)) (centreS (zeroNF testIn)) m).2 ∧
  (∀ c : ℤ × ℤ, c ∈ candList m
      ↔ (-(m : ℤ) ≤ c.1 ∧ c.1 ≤ m ∧ -(m : ℤ) ≤ c.2 ∧ c.2 ≤ m)) ∧
  (candList m).Pairwise lexLT ∧
  ((bestPair (centreS (zeroNF refIn)) (centreS (zeroNF testIn)) m).2 = (0, 0) ∨
    ((bestPair (centreS (zeroNF refIn)) (centreS (zeroNF testIn)) m).2 ∈ candList m ∧
      50 ≤ (maskPairs (centreS (zeroNF refIn)) (centreS (zeroNF testIn))
        (bestPair (centreS (zeroNF refIn)) (centreS (zeroNF testIn)) m).2.1
        (bestPair (centreS (zeroNF refIn)) (centreS (zeroNF testIn)) m).2.2).length)) ∧
  (∀ c ∈ candList m, ∀ s,
      candScore (centreS (zeroNF refIn)) (centreS (zeroNF testIn)) c = some s
      → scoreGT s (bestPair (centreS (zeroNF refIn)) (centreS (zeroNF testIn)) m).1
          = false) ∧
  (∀ c ∈ candList m,
      lexLT c (bestPair (centreS (zeroNF refIn)) (centreS (zeroNF testIn)) m).2
      → ∀ s, candScore (centreS (zeroNF refIn)) (centreS (zeroNF testIn)) c = some s
      → scoreGT (bestPair (centreS (zeroNF refIn)) (centreS (zeroNF testIn)) m).1 s
          = true)

/-- C5: for nondegenerate inputs, `find_offset` scans `dy` ascending outer
and `dx` ascending inner over `[-max_shift, max_shift]²`, never returns a
candidate whose jointly nonzero mask has fewer than 50 pixels, and returns
the first-scanned candidate attaining the maximal correlation (strict
improvement breaks ties), so the result is deterministic. -/
theorem find_offset_scan_discipline (refIn testIn : Grid) (m : ℕ)
    (h1 : stdBelow (zeroNF refIn) = false)
    (h2 : stdBelow (zeroNF testIn) = false) :
    OffsetScanSpec refIn testIn m := by
  unfold OffsetScanSpec
  have key := foldl_offsetStep_spec (centreS (zeroNF refIn))
    (centreS (zeroNF testIn)) (candList m) (Score.q (-999), (0, 0)) trivial
  set R := centreS (zeroNF refIn) with hR
  set T := centreS (zeroNF testIn) with hT
  set res := (candList m).foldl (offsetStep R T) (Score.q (-999), (0, 0)) with hres
  have hbp : bestPair R T m = res := by rw [hres]; rfl
  rw [hbp]
  obtain ⟨hWr, hcase⟩ := key
  refine ⟨?_, fun c => mem_candList m c, candList_pairwise m, ?_, ?_, ?_⟩
  · rw [find_offset_eq_bestPair refIn testIn m h1 h2, ← hR, ← hT, hbp]
  · rcases hcase with ⟨hr0, -⟩ | ⟨l₁, l₂, heq, hscr, -, -, -⟩
    · left; rw [hr0]
    · right
      refine ⟨?_, (candScore_some hscr).1⟩
      rw [heq]
      exact List.mem_append_right l₁ (List.mem_cons_self _ _)
  · intro c hc s hcs
    rcases hcase with ⟨-, hall⟩ | ⟨l₁, l₂, heq, hscr, -, h₁, h₂⟩
    · exfalso
      have hub := hall c hc s hcs
      have hlb := (candScore_some hcs).2.2
      linarith
    · have hWFs : Score.WF s := (candScore_some hcs).2.1
      have hnot : ¬ res.1.val < s.val := by
        have hc2 : c ∈ l₁ ∨ c = res.2 ∨ c ∈ l₂ := by
          rw [heq] at hc
          rcases List.mem_append.mp hc with h | h
          · exact Or.inl h
          · rcases List.mem_cons.mp h with h | h
            · exact Or.inr (Or.inl h)
            · exact Or.inr (Or.inr h)
        rcases hc2 with h | h | h
        · exact not_lt.mpr (le_of_lt (h₁ c h s hcs))
        · rw [h, hscr] at hcs
          injection hcs with hcs
          rw [hcs]
          exact lt_irrefl _
        · exact not_lt.mpr (h₂ c h s hcs)
      exact Bool.eq_false_iff.mpr fun htrue =>
        hnot ((scoreGT_iff_val s _ hWFs hWr).mp htrue)
  · intro c hc hlex s hcs
    rcases hcase with ⟨-, hall⟩ | ⟨l₁, l₂, heq, hscr, -, h₁, h₂⟩
    · exfalso
      have hub := hall c hc s hcs
      have hlb := (candScore_some hcs).2.2
      linarith
    · have hWFs : Score.WF s := (candScore_some hcs).2.1
      have hmem : c ∈ l₁ := by
        rw [heq] at hc
        rcases List.mem_append.mp hc with h | h
        · exact h
        · rcases List.mem_cons.mp h with h | h
          · exfalso
            rw [h] at hlex
            exact lexLT_irrefl _ hlex
          · exfalso
            have hp := candList_pairwise m
            rw [heq] at hp
            have hrel := List.rel_of_pairwise_cons
              (List.pairwise_append.mp hp).2.1 h
            exact lexLT_asymm hlex hrel
      exact (scoreGT_iff_val _ s hWr hWFs).mpr (h₁ c hmem s hcs)

/-- C5 witness: the scan-discipline theorem applied to the concrete
nondegenerate pair `(g10, g10)` at `max_shift = 3`. -/
theorem find_offset_scan_discipline_witness :
    (stdBelow (zeroNF g10) = false ∧ stdBelow (zeroNF g10) = false) ∧
    OffsetScanSpec g10 g10 3 :=
  ⟨⟨by decide, by decide⟩,
   find_offset_scan_discipline g10 g10 3 (by decide) (by decide)⟩

/-- C4: when either input grid has standard deviation below `1e-6` after
non-finite entries are zeroed, `find_offset` returns `(0, 0)` immediately,
for every `max_shift`, without evaluating any candidate shift and without
failing. -/
theorem find_offset_degenerate (refIn testIn : Grid) (m : ℕ)
    (h : stdBelow (zeroNF refIn) = true ∨ stdBelow (zeroNF testIn) = true) :
    find_offset refIn testIn m = (0, 0) := by
  unfold find_offset
  rcases h with h | h <;> simp [h]

/-- C4 witness: the all-constant grid of value 5 (standard deviation 0). -/
theorem find_offset_degenerate_witness :
    (stdBelow (zeroNF constGrid) = true ∨ stdBelow (zeroNF constGrid) = true) ∧
    find_offset constGrid constGrid 7 = (0, 0) :=
  ⟨Or.inl (by decide), find_offset_degenerate constGrid constGrid 7 (Or.inl (by decide))⟩

/-- C10: for nondegenerate inputs, if no candidate shift reaches the
50-pixel gate, `find_offset` returns the initial best `(0, 0)` rather than
failing or returning an arbitrary shift. -/
theorem find_offset_no_eligible_candidate (refIn testIn : Grid) (m : ℕ)
    (h1 : stdBelow (zeroNF refIn) = false)
    (h2 : stdBelow (zeroNF testIn) = false)
    (h : ∀ c ∈ candList m,
      (maskPairs (centreS (zeroNF refIn)) (centreS (zeroNF testIn))
        c.1 c.2).length < 50) :
    find_offset refIn testIn m = (0, 0) := by
  rw [find_offset_eq_bestPair refIn testIn m h1 h2]
  have hb : bestPair (centreS (zeroNF refIn)) (centreS (zeroNF testIn)) m
      = (Score.q (-999), (0, 0)) := by
    unfold bestPair
    apply foldl_no_update
    intro c hc
    unfold candScore
    simp [h c hc]
  rw [hb]

/-- C10 witness: a 5×5 grid of distinct values is nondegenerate but every
mask of the 49 candidate shifts has at most 25 pixels. -/
theorem find_offset_no_eligible_candidate_witness :
    (stdBelow (zeroNF g5) = false ∧ stdBelow (zeroNF g5) = false ∧
      ∀ c ∈ candList 3,
        (maskPairs (centreS (zeroNF g5)) (centreS (zeroNF g5))
          c.1 c.2).length < 50) ∧
    find_offset g5 g5 3 = (0, 0) :=
  ⟨⟨by decide, by decide, by decide⟩,
   find_offset_no_eligible_candidate g5 g5 3 (by decide) (by decide) (by decide)⟩

/-- C3 counterexample: the column-gradient grid `gradGrid` satisfies every
hypothesis of the claim — standard deviation at least `1e-6` and 64 ≥ 50
jointly nonzero pixels at zero shift — yet `find_offset(gradGrid, gradGrid, 3)`
returns `(-1, 0)`, not `(0, 0)`: the earlier-scanned shift `(-1, 0)` already
attains perfect correlation (identical rows), and strict improvement never
lets the zero shift displace it. -/
theorem find_offset_self_counterexample :
    stdBelow (zeroNF gradGrid) = false ∧
    50 ≤ (maskPairs (centreS (zeroNF gradGrid)) (centreS (zeroNF gradGrid))
      0 0).length ∧
    find_offset gradGrid gradGrid 3 = (-1, 0) ∧
    ((-1, 0) : ℤ × ℤ) ≠ (0, 0) :=
  ⟨by decide, by decide, by decide, by decide⟩

/-- C3 amended: self-correlation is maximal at zero shift, but a grid with
translational self-similarity can tie it at an earlier-scanned shift, which
then wins; on a grid of 100 pairwise distinct values — the specification's
own example of a 10×10 grid of distinct random values — `find_offset`
returns `(0, 0)`. -/
theorem find_offset_self_distinct_grid :
    (flatQ (zeroNF g10)).Nodup ∧
    stdBelow (zeroNF g10) = false ∧
    find_offset g10 g10 3 = (0, 0) :=
  ⟨by decide, by decide, by decide⟩

/-! ## The LIA slope regression `calc_slope` (src/_analyze_lia.py)

The source returns a Python dict.  The record below mirrors it exactly:
`intercept` and `sample` are `Option`-wrapped because the early returns of
the source omit the `intercept` key and the `_lia`/`_bs` arrays entirely,
and `n` has the value type `Val` because the value stored under `n` is a
number in every branch of the source (the specification asserts it is the
NaN sentinel, which is refutable only if the field can hold one).
`scipy.stats.linregress` is embedded exactly: `slope = cov/varx` (NaN when
`varx = 0`, where the float computation is 0/0), `intercept` is
`ȳ − slope·x̄`, `r = 0` when either variance is zero and
`r = cov/√(varx·vary)` otherwise (the clip of `r` to `[-1, 1]` is a no-op
in exact arithmetic, by `covS_sq_le`), and the stored `r2` is `r²`, the
rational `cov²/(varx·vary)`. -/

/-- The dict returned by `calc_slope`. -/
structure SlopeResult where
  slope : Val
  intercept : Option Val
  r2 : Val
  n : Val
  sample : Option (List (ℚ × ℚ))
deriving DecidableEq, Repr

/-- The filter of `calc_slope`: jointly finite samples with
`15 ≤ lia ≤ 60` and `-40 < bs < 5`, as `(lia, bs)` pairs (regression of
backscatter on angle: `x = lia`, `y = bs`). -/
def slopeFilter (bs lia : List Val) : List (ℚ × ℚ) :=
  (bs.zip lia).filterMap fun p =>
    match p with
    | (Val.num b, Val.num l) =>
        if 15 ≤ l ∧ l ≤ 60 ∧ -40 < b ∧ b < 5 then some (l, b) else none
    | _ => none

/-- `calc_slope` from `src/_analyze_lia.py`. -/
def calc_slope (bs lia : Option (List Val)) : SlopeResult :=
  match bs, lia with
  | some bsl, some lial =>
      let ps := slopeFilter bsl lial
      if ps.length < 20 then
        ⟨Val.nan, none, Val.nan, Val.num ps.length, none⟩
      else
        let u := covS ps
        let vx := varX ps
        let vy := varY ps
        ⟨if vx = 0 then Val.nan else Val.num (u / vx),
         some (if vx = 0 then Val.nan
           else Val.num (qmean (ps.map Prod.snd) - u / vx * qmean (ps.map Prod.fst))),
         if vx = 0 ∨ vy = 0 then Val.num 0 else Val.num (u ^ 2 / (vx * vy)),
         Val.num ps.length,
         some ps⟩
  | _, _ => ⟨Val.nan, none, Val.nan, Val.num 0, none⟩

/-- What `calc_slope` actually does on two same-length arrays: the filter
keeps exactly the in-range samples; with fewer than 20 of them the result
has `slope` and `r2` NaN, no `intercept` key, no retained sample arrays,
and `n` equal to the filtered count (a number, not the sentinel); with at
least 20 of them and a nonconstant angle sample it performs the
ordinary-least-squares regression of backscatter on angle; a missing input
array yields the NaN record with `n = 0`. -/
def SlopeSpec (bs lia : List Val) : Prop :=
  ((slopeFilter bs lia).length < 20 →
    calc_slope (some bs) (some lia)
      = ⟨Val.nan, none, Val.nan, Val.num (slopeFilter bs lia).length, none⟩) ∧
  (20 ≤ (slopeFilter bs lia).length → varX (slopeFilter bs lia) ≠ 0 →
    calc_slope (some bs) (some lia)
      = ⟨Val.num (covS (slopeFilter bs lia) / varX (slopeFilter bs lia)),
         some (Val.num (qmean ((slopeFilter bs lia).map Prod.snd)
           - covS (slopeFilter bs lia) / varX (slopeFilter bs lia)
             * qmean ((slopeFilter bs lia).map Prod.fst))),
         (if varY (slopeFilter bs lia) = 0 then Val.num 0
          else Val.num (covS (slopeFilter bs lia) ^ 2
            / (varX (slopeFilter bs lia) * varY (slopeFilter bs lia)))),
         Val.num (slopeFilter bs lia).length,
         some (slopeFilter bs lia)⟩) ∧
  (∀ p : ℚ × ℚ, p ∈ slopeFilter bs lia →
    15 ≤ p.1 ∧ p.1 ≤ 60 ∧ -40 < p.2 ∧ p.2 < 5) ∧
  calc_slope none (some lia) = ⟨Val.nan, none, Val.nan, Val.num 0, none⟩ ∧
  calc_slope (some bs) none = ⟨Val.nan, none, Val.nan, Val.num 0, none⟩

/-- C2 counterexample: with one sample failing the filter, the short-circuit
result of `calc_slope` stores the actual count 0 under `n` — a number, not
the undefined sentinel — and has no `intercept` field at all, refuting the
claim that all of `slope`, `intercept`, `r2`, `n` are the undefined
sentinel whenever fewer than 20 samples pass. -/
theorem calc_slope_small_sample_counterexample :
    calc_slope (some [Val.num 0]) (some [Val.num 0])
      = ⟨Val.nan, none, Val.nan, Val.num 0, none⟩ ∧
    (calc_slope (some [Val.num 0]) (some [Val.num 0])).n ≠ Val.nan ∧
    (calc_slope (some [Val.num 0]) (some [Val.num 0])).intercept = none :=
  ⟨by decide, by decide, by decide⟩

/-- C2 amended: `calc_slope` restricts to jointly finite samples with
`lia ∈ [15, 60]` and `bs ∈ (-40, 5)`, performs ordinary least squares of
backscatter on angle, and when fewer than 20 samples pass the filter it
returns `slope` and `r2` as the undefined sentinel, omits the `intercept`
key, and stores the actual filtered count under `n`. -/
theorem calc_slope_spec (bs lia : List Val) (_h : bs.length = lia.length) :
    SlopeSpec bs lia := by
  unfold SlopeSpec
  refine ⟨?_, ?_, ?_, rfl, ?_⟩
  · intro hlt
    unfold calc_slope
    simp only [hlt, if_pos hlt, if_true]
  · intro hge hvx
    unfold calc_slope
    have hlt : ¬ (slopeFilter bs lia).length < 20 := not_lt.mpr hge
    simp only [hlt, if_neg hlt, if_false, if_neg hvx]
    by_cases hvy : varY (slopeFilter bs lia) = 0
    · simp [hvx, hvy]
    · simp [hvx, hvy]
  · intro p hp
    unfold slopeFilter at hp
    obtain ⟨q, -, hq⟩ := List.mem_filterMap.mp hp
    rcases q with ⟨b, l⟩
    cases b with
    | nan => cases hq
    | num bq =>
        cases l with
        | nan => cases hq
        | num lq =>
            dsimp only at hq
            by_cases hcond : 15 ≤ lq ∧ lq ≤ 60 ∧ -40 < bq ∧ bq < 5
            · rw [if_pos hcond] at hq
              injection hq with hq
              rw [← hq]
              exact hcond
            · rw [if_neg hcond] at hq
              cases hq
  · cases bs <;> rfl

/-- C2 witness: the amended specification applied at concrete equal-length
arrays. -/
theorem calc_slope_spec_witness :
    ([Val.num 0, Val.nan].length = [Val.num 20, Val.num 30].length) ∧
    SlopeSpec [Val.num 0, Val.nan] [Val.num 20, Val.num 30] :=
  ⟨by decide, calc_slope_spec _ _ (by decide)⟩

/-! ## The raster loader and the per-unit loading step (src/_data_utils.py)

A raster file is one band of cells plus an affine transform, the latter
abstracted to one rational number (no claim inspects it).  The filesystem
is abstracted to a partial map from path atoms to raster files; a path
that does not resolve models a missing file. -/

/-- One raster file: the first band and its affine transform. -/
abbrev Raster := List (List Val) × ℚ

/-- A loaded, processed band: `none` cells model NaN, dB values are real. -/
abbrev PGrid := List (List (Option ℝ))

/-- The processing of one band by `load_raster`: cast to float (exact
here), replace every value `≤ 0` by NaN — a NaN is unchanged, since a NaN
comparison is false — and, when `as_db` is set, transform by `10·log10`,
which maps the NaN cells to NaN again.  The source applies the masking and
the dB conversion in two passes over the array; cell by cell the combined
effect is exactly this map. -/
noncomputable def processBand (band : List (List Val)) (as_db : Bool) : PGrid :=
  band.map (List.map fun v =>
    match v with
    | Val.nan => none
    | Val.num q =>
        if q ≤ 0 then none
        else if as_db then some (10 * Real.logb 10 (q : ℝ)) else some ((q : ℝ)))

/-- `load_raster` from `src/_data_utils.py`: absent (not an error) when the
path is falsy or does not resolve to a file; otherwise the processed band
with its transform (the source returns the pair `(None, None)` in the
absent case, modelled by `none`). -/
noncomputable def load_raster (fs : ℕ → Option Raster) (path : Option ℕ)
    (as_db : Bool) : Option (PGrid × ℚ) :=
  match path with
  | none => none
  | some p =>
      match fs p with
      | none => none
      | some (band, transform) => some (processBand band as_db, transform)

/-- C7: `load_raster` returns absent for a missing path, masks every
non-positive value to the missing sentinel before any dB conversion — so a
linear-domain grid never contains a non-positive finite value — and in dB
mode every surviving value is `10·log10` of a positive input value. -/
theorem load_raster_spec (fs : ℕ → Option Raster) (p : ℕ)
    (band : List (List Val)) (t : ℚ) (ad : Bool)
    (h : fs p = some (band, t)) :
    load_raster fs none ad = none ∧
    (∀ p2 : ℕ, fs p2 = none → load_raster fs (some p2) ad = none) ∧
    load_raster fs (some p) ad = some (processBand band ad, t) ∧
    (∀ row ∈ processBand band false, ∀ cell ∈ row, ∀ x : ℝ,
      cell = some x → 0 < x) ∧
    (∀ row ∈ processBand band true, ∀ cell ∈ row, ∀ x : ℝ,
      cell = some x → ∃ q : ℚ, 0 < q ∧ Val.num q ∈ band.flatten
        ∧ x = 10 * Real.logb 10 (q : ℝ)) := by
  refine ⟨rfl, ?_, ?_, ?_, ?_⟩
  · intro p2 h2
    unfold load_raster
    dsimp only
    rw [h2]
  · unfold load_raster
    dsimp only
    rw [h]
  · intro row hrow cell hcell x hx
    unfold processBand at hrow
    obtain ⟨row0, -, rfl⟩ := List.mem_map.mp hrow
    obtain ⟨v, -, rfl⟩ := List.mem_map.mp hcell
    cases v with
    | nan => cases hx
    | num q =>
        dsimp only at hx
        by_cases hq : q ≤ 0
        · rw [if_pos hq] at hx; cases hx
        · rw [if_neg hq, if_neg (by simp)] at hx
          injection hx with hx
          rw [← hx]
          exact_mod_cast not_le.mp hq
  · intro row hrow cell hcell x hx
    unfold processBand at hrow
    obtain ⟨row0, hrow0, rfl⟩ := List.mem_map.mp hrow
    obtain ⟨v, hv, rfl⟩ := List.mem_map.mp hcell
    cases v with
    | nan => cases hx
    | num q =>
        dsimp only at hx
        by_cases hq : q ≤ 0
        · rw [if_pos hq] at hx; cases hx
        · rw [if_neg hq, if_pos rfl] at hx
          injection hx with hx
          refine ⟨q, not_le.mp hq, ?_, hx.symm⟩
          rw [List.mem_flatten]
          exact ⟨row0, hrow0, hv⟩

/-- A concrete two-row band: a positive value, a non-positive value, a NaN
and another positive value. -/
def demoBand : List (List Val) :=
  [[Val.num 4, Val.num (-2)], [Val.nan, Val.num 1]]

/-- A one-file filesystem holding `demoBand` at path 0. -/
def demoFS : ℕ → Option Raster := fun p =>
  if p = 0 then some (demoBand, 7) else none

/-- C7 witness: the loader specification applied to the one-file
filesystem. -/
theorem load_raster_spec_witness :
    (demoFS 0 = some (demoBand, 7)) ∧
    (load_raster demoFS none true = none ∧
     (∀ p2 : ℕ, demoFS p2 = none → load_raster demoFS (some p2) true = none) ∧
     load_raster demoFS (some 0) true = some (processBand demoBand true, 7) ∧
     (∀ row ∈ processBand demoBand false, ∀ cell ∈ row, ∀ x : ℝ,
       cell = some x → 0 < x) ∧
     (∀ row ∈ processBand demoBand true, ∀ cell ∈ row, ∀ x : ℝ,
       cell = some x → ∃ q : ℚ, 0 < q ∧ Val.num q ∈ demoBand.flatten
         ∧ x = 10 * Real.logb 10 (q : ℝ))) :=
  ⟨rfl, load_raster_spec demoFS 0 demoBand 7 true rfl⟩

/-! ## The per-unit loading step `load_all_methods` (src/_data_utils.py)

The six processing methods, as a closed enumeration; the per-method file
resolution (directory conventions and fallback globbing) is abstracted
into a record of optional raster files, one field per method, which is
what the path existence checks of the source observe.  The source then
proceeds sequentially: the HyP3 grid (when present) establishes the
reference transform and reference shape; each present GEE grid is added
as loaded — it only establishes the reference shape when none exists yet,
and is never resampled; each present PyroSAR grid is resampled to the
reference shape when one exists and differs.  `scipy.ndimage.zoom(...,
order=1)` with factors `target/source` is modelled shape-faithfully: the
output has exactly the target shape and cells are taken by nearest
sampling rather than spline interpolation, which no claim below
inspects. -/

/-- The closed method enumeration of the source's `data_dict` keys. -/
inductive MethodKey where
  | hyp3_gamma
  | gee_s1ard_kartverket
  | gee_s1ard_copernicus
  | gee_standard
  | pyrosar_kartverket
  | pyrosar_copernicus
deriving DecidableEq, Repr

/-- The optional raster file each method resolves to for one
(date, AOI, polarization) unit. -/
structure MethodFiles where
  hyp3 : Option Raster
  gee_kart : Option Raster
  gee_cop : Option Raster
  gee_std : Option Raster
  pyro_kart : Option Raster
  pyro_cop : Option Raster

/-- The shape `(rows, cols)` of a grid (an empty grid has shape (0,0)). -/
def shape {α : Type} (g : List (List α)) : ℕ × ℕ := (g.length, (g.headD []).length)

/-- `scipy.ndimage.zoom` with per-axis factors `target/source`, modelled
shape-faithfully (see the section comment). -/
def zoom (g : PGrid) (t : ℕ × ℕ) : PGrid :=
  (List.range t.1).map fun i =>
    (List.range t.2).map fun j =>
      (g.getD (i * g.length / t.1) []).getD (j * (g.headD []).length / t.2) none

/-- A shape produced by `shape` has zero columns when it has zero rows. -/
lemma shape_wf {α : Type} (g : List (List α)) : (shape g).1 = 0 → (shape g).2 = 0 := by
  cases g with
  | nil => intro; rfl
  | cons r g => intro h; cases h

/-- `zoom` yields exactly the target shape, for any target a grid can
have. -/
lemma shape_zoom (g : PGrid) (t : ℕ × ℕ) (ht : t.1 = 0 → t.2 = 0) :
    shape (zoom g t) = t := by
  obtain ⟨t1, t2⟩ := t
  unfold shape zoom
  cases t1 with
  | zero =>
      have : t2 = 0 := ht rfl
      subst this
      rfl
  | succ k =>
      simp only [List.length_map, List.length_range]
      rw [List.range_succ_eq_map]
      simp

/-- The per-unit scan state: the entries added so far and the reference
shape, when established. -/
abbrev LoadAcc := List (MethodKey × PGrid) × Option (ℕ × ℕ)

/-- The HyP3 (reference) step of `load_all_methods`: when present, its
processed grid is the first entry and establishes the reference shape. -/
noncomputable def initAcc (h3 : Option Raster) (ad : Bool) : LoadAcc :=
  match h3 with
  | some (band, _t) =>
      ([(MethodKey.hyp3_gamma, processBand band ad)],
       some (shape (processBand band ad)))
  | none => ([], none)

/-- The reference transform established by the HyP3 step. -/
def initTransform (h3 : Option Raster) : Option ℚ :=
  match h3 with
  | some (_band, t) => some t
  | none => none

/-- One GEE step of `load_all_methods`: a present grid is added as loaded
(never resampled) and establishes the reference shape only when none
exists yet (`if ref_shape is None: ref_shape = data.shape`). -/
noncomputable def geeAdd (entry : Option Raster) (key : MethodKey) (ad : Bool)
    (acc : LoadAcc) : LoadAcc :=
  match entry with
  | none => acc
  | some (band, _t) =>
      (acc.1 ++ [(key, processBand band ad)],
       some (acc.2.getD (shape (processBand band ad))))

/-- The alignment applied in the PyroSAR branch: resample to the reference
shape when one exists and the shapes differ
(`if ref_shape and data.shape != ref_shape: data = zoom(...)`). -/
def alignTo (rs : Option (ℕ × ℕ)) (d : PGrid) : PGrid :=
  match rs with
  | some s => if shape d ≠ s then zoom d s else d
  | none => d

/-- One PyroSAR step of `load_all_methods`: a present grid is aligned to
the reference shape (when established) and added; the reference shape is
not changed. -/
noncomputable def pyroAdd (entry : Option Raster) (key : MethodKey) (ad : Bool)
    (acc : LoadAcc) : LoadAcc :=
  match entry with
  | none => acc
  | some (band, _t) =>
      (acc.1 ++ [(key, alignTo acc.2 (processBand band ad))], acc.2)

/-- The sequential scan of `load_all_methods` over the six methods, in the
order of the source: HyP3, the three GEE products, the two PyroSAR
products. -/
noncomputable def scanChain (files : MethodFiles) (ad : Bool) : LoadAcc :=
  pyroAdd files.pyro_cop MethodKey.pyrosar_copernicus ad
    (pyroAdd files.pyro_kart MethodKey.pyrosar_kartverket ad
      (geeAdd files.gee_std MethodKey.gee_standard ad
        (geeAdd files.gee_cop MethodKey.gee_s1ard_copernicus ad
          (geeAdd files.gee_kart MethodKey.gee_s1ard_kartverket ad
            (initAcc files.hyp3 ad)))))

/-- `load_all_methods` from `src/_data_utils.py`: the loaded entries and
the reference transform. -/
noncomputable def load_all_methods (files : MethodFiles) (ad : Bool) :
    List (MethodKey × PGrid) × Option ℚ :=
  ((scanChain files ad).1, initTransform files.hyp3)

/-- The reference shape the scan establishes (an internal variable of the
source, exposed for the statements below). -/
noncomputable def refShapeOf (files : MethodFiles) (ad : Bool) : Option (ℕ × ℕ) :=
  (scanChain files ad).2

lemma pyroAdd_refShape (e : Option Raster) (k : MethodKey) (ad : Bool)
    (acc : LoadAcc) : (pyroAdd e k ad acc).2 = acc.2 := by
  cases e with
  | none => rfl
  | some r => obtain ⟨band, t⟩ := r; rfl

lemma initAcc_wf (h3 : Option Raster) (ad : Bool) (s : ℕ × ℕ)
    (h : (initAcc h3 ad).2 = some s) : s.1 = 0 → s.2 = 0 := by
  cases h3 with
  | none => cases h
  | some r =>
      obtain ⟨band, t⟩ := r
      unfold initAcc at h
      injection h with h
      rw [← h]
      exact shape_wf _

lemma geeAdd_wf (e : Option Raster) (k : MethodKey) (ad : Bool) (acc : LoadAcc)
    (hacc : ∀ s : ℕ × ℕ, acc.2 = some s → s.1 = 0 → s.2 = 0) :
    ∀ s : ℕ × ℕ, (geeAdd e k ad acc).2 = some s → s.1 = 0 → s.2 = 0 := by
  intro s h
  cases e with
  | none => exact hacc s h
  | some r =>
      obtain ⟨band, t⟩ := r
      unfold geeAdd at h
      injection h with h
      cases hacc2 : acc.2 with
      | none =>
          rw [hacc2] at h
          simp only [Option.getD_none] at h
          rw [← h]
          exact shape_wf _
      | some s0 =>
          rw [hacc2] at h
          simp only [Option.getD_some] at h
          rw [← h]
          exact hacc s0 hacc2

/-- Any established reference shape has zero columns when it has zero
rows (it is the shape of some loaded grid). -/
lemma refShapeOf_wf (files : MethodFiles) (ad : Bool) (s : ℕ × ℕ)
    (h : refShapeOf files ad = some s) : s.1 = 0 → s.2 = 0 := by
  unfold refShapeOf scanChain at h
  rw [pyroAdd_refShape, pyroAdd_refShape] at h
  exact geeAdd_wf _ _ _ _
    (geeAdd_wf _ _ _ _
      (geeAdd_wf _ _ _ _ (fun s0 h0 => initAcc_wf files.hyp3 ad s0 h0))) s h

lemma mem_initAcc {h3 : Option Raster} {ad : Bool} {kg : MethodKey × PGrid}
    (h : kg ∈ (initAcc h3 ad).1) : kg.1 = MethodKey.hyp3_gamma := by
  cases h3 with
  | none => cases h
  | some r =>
      obtain ⟨band, t⟩ := r
      unfold initAcc at h
      rcases List.mem_singleton.mp h with rfl
      rfl

lemma mem_geeAdd {e : Option Raster} {k : MethodKey} {ad : Bool} {acc : LoadAcc}
    {kg : MethodKey × PGrid} (h : kg ∈ (geeAdd e k ad acc).1) :
    kg ∈ acc.1 ∨ kg.1 = k := by
  cases e with
  | none => exact Or.inl h
  | some r =>
      obtain ⟨band, t⟩ := r
      unfold geeAdd at h
      rcases List.mem_append.mp h with h | h
      · exact Or.inl h
      · rcases List.mem_singleton.mp h with rfl
        exact Or.inr rfl

lemma mem_pyroAdd {e : Option Raster} {k : MethodKey} {ad : Bool} {acc : LoadAcc}
    {kg : MethodKey × PGrid} (h : kg ∈ (pyroAdd e k ad acc).1) :
    kg ∈ acc.1 ∨ (kg.1 = k ∧ kg.2 ∈ (fun band => alignTo acc.2 (processBand band ad))
      '' {band | ∃ t : ℚ, e = some (band, t)}) := by
  cases e with
  | none => exact Or.inl h
  | some r =>
      obtain ⟨band, t⟩ := r
      unfold pyroAdd at h
      rcases List.mem_append.mp h with h | h
      · exact Or.inl h
      · rcases List.mem_singleton.mp h with rfl
        exact Or.inr ⟨rfl, band, ⟨t, rfl⟩, rfl⟩

/-- An aligned grid has the reference shape. -/
lemma shape_alignTo (s : ℕ × ℕ) (d : PGrid) (hwf : s.1 = 0 → s.2 = 0) :
    shape (alignTo (some s) d) = s := by
  unfold alignTo
  dsimp only
  by_cases hd : shape d ≠ s
  · rw [if_pos hd]
    exact shape_zoom d s hwf
  · rw [if_neg hd]
    exact not_not.mp fun hne => hd hne

/-- C1 amended: only the PyroSAR grids are aligned, and only when a
reference shape exists and differs; every PyroSAR entry of the returned
dict then has the reference shape.  (GEE grids are returned exactly as
loaded; see the counterexample for a unit whose grids reach the metrics
with different shapes.) -/
theorem load_all_methods_pyrosar_aligned (files : MethodFiles) (ad : Bool)
    (s : ℕ × ℕ) (h : refShapeOf files ad = some s) :
    ∀ e ∈ (load_all_methods files ad).1,
      (e.1 = MethodKey.pyrosar_kartverket ∨ e.1 = MethodKey.pyrosar_copernicus) →
      shape e.2 = s := by
  intro e he hkey
  have hwf := refShapeOf_wf files ad s h
  unfold refShapeOf scanChain at h
  rw [pyroAdd_refShape] at h
  have h4 : (pyroAdd files.pyro_kart MethodKey.pyrosar_kartverket ad
      (geeAdd files.gee_std MethodKey.gee_standard ad
        (geeAdd files.gee_cop MethodKey.gee_s1ard_copernicus ad
          (geeAdd files.gee_kart MethodKey.gee_s1ard_kartverket ad
            (initAcc files.hyp3 ad))))).2 = some s := h
  have h3 : (geeAdd files.gee_std MethodKey.gee_standard ad
      (geeAdd files.gee_cop MethodKey.gee_s1ard_copernicus ad
        (geeAdd files.gee_kart MethodKey.gee_s1ard_kartverket ad
          (initAcc files.hyp3 ad)))).2 = some s := by
    rw [← pyroAdd_refShape files.pyro_kart MethodKey.pyrosar_kartverket ad]
    exact h4
  unfold load_all_methods scanChain at he
  rcases mem_pyroAdd he with he4 | ⟨-, hmem⟩
  · rcases mem_pyroAdd he4 with he3 | ⟨-, hmem⟩
    · rcases mem_geeAdd he3 with he2 | hk
      · rcases mem_geeAdd he2 with he1 | hk
        · rcases mem_geeAdd he1 with he0 | hk
          · have := mem_initAcc he0
            rcases hkey with hkey | hkey <;> rw [this] at hkey <;> cases hkey
          · rcases hkey with hkey | hkey <;> rw [hk] at hkey <;> cases hkey
        · rcases hkey with hkey | hkey <;> rw [hk] at hkey <;> cases hkey
      · rcases hkey with hkey | hkey <;> rw [hk] at hkey <;> cases hkey
    · obtain ⟨band, -, heq⟩ := hmem
      rw [← heq]
      dsimp only
      rw [h3]
      exact shape_alignTo s _ hwf
  · obtain ⟨band, -, heq⟩ := hmem
    rw [← heq]
    dsimp only
    rw [pyroAdd_refShape, h3]
    exact shape_alignTo s _ hwf

/-- A 4×4 one-band raster of positive cells. -/
def band44 : List (List Val) := List.replicate 4 (List.replicate 4 (Val.num 1))

/-- A 3×3 one-band raster of positive cells. -/
def band33 : List (List Val) := List.replicate 3 (List.replicate 3 (Val.num 2))

/-- A unit where HyP3 resolves to a 4×4 raster and the GEE standard product
to a 3×3 raster; the other methods are absent. -/
def mismatchFiles : MethodFiles :=
  ⟨some (band44, 1), none, none, some (band33, 2), none, none⟩

/-- A unit where HyP3 resolves to a 4×4 raster and PyroSAR (Kartverket DEM)
to a 3×3 raster; the other methods are absent. -/
def alignFiles : MethodFiles :=
  ⟨some (band44, 1), none, none, none, some (band33, 2), none⟩

/-- C1 counterexample: with a 4×4 reference and a 3×3 GEE grid,
`load_all_methods` establishes the reference shape (4,4) yet returns the
GEE grid unresampled at shape (3,3) — grids of different shapes leave the
loading step for the same unit, refuting mandatory, unconditional
alignment of every loaded grid. -/
theorem load_all_methods_unaligned_counterexample :
    refShapeOf mismatchFiles true = some (4, 4) ∧
    ((load_all_methods mismatchFiles true).1.map fun e => shape e.2)
      = [(4, 4), (3, 3)] ∧
    ((load_all_methods mismatchFiles true).1.all fun e => shape e.2 == (4, 4))
      = false ∧
    ((4, 4) : ℕ × ℕ) ≠ (3, 3) :=
  ⟨by decide, by decide, by decide, by decide⟩

/-- C1 witness: the alignment theorem applied to a unit with a 4×4
reference and a 3×3 PyroSAR grid (which is resampled to 4×4). -/
theorem load_all_methods_pyrosar_aligned_witness :
    (refShapeOf alignFiles true = some (4, 4)) ∧
    ∀ e ∈ (load_all_methods alignFiles true).1,
      (e.1 = MethodKey.pyrosar_kartverket ∨ e.1 = MethodKey.pyrosar_copernicus) →
      shape e.2 = (4, 4) :=
  ⟨by decide, load_all_methods_pyrosar_aligned alignFiles true (4, 4) (by decide)⟩

end RTC
